import Mathlib

/-
Verification of the firebase-rs request-composition layer.

Strings are modelled as lists of characters (`Str`).  The repository's own
functions (`check_uri`, `Firebase::new`, `Firebase::auth`, `Firebase::at`,
`Firebase::add_param`, the two transport backends' `send` bodies) are
translated directly from `src/lib.rs`, `src/utils.rs`, `src/errors.rs`,
`src/params.rs`, `src/queries.rs`, `src/clients/reqwest.rs` and
`src/clients/http_req_wasi.rs`.  The `url` crate operations the code calls
(`str::parse::<Url>`, `Url::path_segments`, `Url::set_path`, `Url::set_query`,
`Url::query_pairs_mut().append_pair`) are external collaborators; they are
modelled from their documented WHATWG behaviour in the aspects this code
exercises (scheme lowering, special-scheme authority, hierarchical vs
cannot-be-a-base URLs, percent-encode sets, form-urlencoding).  Simplifications
of the url-crate model, each irrelevant to the claims proved below, are noted
where they occur: dot-segment resolution, IDNA/host validation, userinfo and
port splitting, UTF-8 byte-level escaping of non-ASCII characters, and input
tab/newline stripping are omitted.
-/

abbrev Str := List Char

/-- Concatenation of a list of strings (used to model `Iterator::collect::<String>`). -/
def catStrs : List Str → Str
  | [] => []
  | s :: rest => s ++ catStrs rest

/-- Split on every occurrence of a character; models Rust `str::split(c)`
(splitting the empty string yields one empty piece, as in Rust). -/
def splitc (c : Char) : Str → List Str
  | [] => [[]]
  | x :: xs =>
    if x = c then [] :: splitc c xs
    else
      match splitc c xs with
      | [] => [[x]]
      | h :: t => (x :: h) :: t

/-- Interleave a separator character between the pieces (inverse of `splitc`). -/
def joinc (c : Char) : List Str → Str
  | [] => []
  | [s] => s
  | s :: rest => s ++ c :: joinc c rest

/-- Split at the first occurrence of a character, as `form_urlencoded`
does with `=` inside one `key=value` piece. -/
def splitFirst (c : Char) : Str → Str × Str
  | [] => ([], [])
  | x :: xs =>
    if x = c then ([], xs)
    else
      let p := splitFirst c xs
      (x :: p.1, p.2)

/-- Models `str::trim_end_matches('/')` from `check_uri` in `src/utils.rs`. -/
def trimEndSlashes (s : Str) : Str := (s.reverse.dropWhile (fun c => c = '/')).reverse

/-- The canonical wire suffix `".json"`. -/
def jsonSfx : Str := ['.', 'j', 's', 'o', 'n']

/-- The canonical suffix reversed, for suffix-stripping on reversed strings. -/
def jsonRev : Str := ['n', 'o', 's', 'j', '.']

/-- Helper for `stripJson`: repeatedly removes the reversed suffix `".json"`
from the front of a reversed string. -/
def stripRev : Str → Str
  | 'n' :: 'o' :: 's' :: 'j' :: '.' :: rest => stripRev rest
  | l => l

/-- Models Rust `str::trim_end_matches(".json")` (used in `Firebase::at` and
`WithQueries::at`): repeatedly removes the suffix `".json"`. -/
def stripJson (s : Str) : Str := (stripRev s.reverse).reverse

/-- Upper-case hexadecimal digit, for percent-escapes. -/
def hexDig (n : Nat) : Char := if n < 10 then Char.ofNat (48 + n) else Char.ofNat (55 + n)

/-- Percent-escape of one character (codepoints above 0xff would be UTF-8
byte-escaped by the url crate; the claims below only exercise ASCII). -/
def encChar (c : Char) : Str := ['%', hexDig (c.toNat / 16 % 16), hexDig (c.toNat % 16)]

/-- The WHATWG path percent-encode set used by `Url::set_path` and the path
parser: C0 controls, non-ASCII, space, `"`, `#`, `<`, `>`, `?`, backtick,
and the two curly brackets. -/
def pEsc (c : Char) : Bool :=
  decide (c.toNat < 0x20) || decide (0x7e < c.toNat) ||
  [0x20, 0x22, 0x23, 0x3c, 0x3e, 0x3f, 0x60, 0x7b, 0x7d].contains c.toNat

/-- The WHATWG special-scheme query percent-encode set used by `Url::set_query`:
C0 controls, non-ASCII, space, `"`, `#`, `'`, `<`, `>`. -/
def qEsc (c : Char) : Bool :=
  decide (c.toNat < 0x20) || decide (0x7e < c.toNat) ||
  [0x20, 0x22, 0x23, 0x27, 0x3c, 0x3e].contains c.toNat

/-- Percent-encoding with the path set. -/
def encodePath (s : Str) : Str := catStrs (s.map (fun c => if pEsc c then encChar c else [c]))

/-- Percent-encoding with the query set. -/
def encodeQuery (s : Str) : Str := catStrs (s.map (fun c => if qEsc c then encChar c else [c]))

/-- Characters kept verbatim by `form_urlencoded::byte_serialize`
(alphanumerics and `*-._`). -/
def formSafe (c : Char) : Bool :=
  c.isAlpha || c.isDigit || c = '*' || c = '-' || c = '.' || c = '_'

/-- Models `form_urlencoded` serialization of one component, as used by
`Url::query_pairs_mut().append_pair`: safe characters verbatim, space as `+`,
everything else percent-escaped. -/
def formEncode (s : Str) : Str :=
  catStrs (s.map (fun c => if formSafe c then [c] else if c = ' ' then ['+'] else encChar c))

/-- Model of `url::Url`: the components this code reads or writes.  Username,
password, port (kept inside `host`) and fragment are not modelled; none of the
repository's code touches them. -/
structure Url where
  scheme : Str
  host : Str
  path : Str
  query : Option Str
  cannotBeABase : Bool
deriving DecidableEq

/-- The variants of `url::ParseError` this model can produce. -/
inductive UrlCrateError
  | RelativeUrlWithoutBase
  | EmptyHost
deriving DecidableEq

/-- Characters allowed inside a scheme after the first (WHATWG). -/
def schemeChar (c : Char) : Bool := c.isAlpha || c.isDigit || c = '+' || c = '-' || c = '.'

/-- ASCII lower-casing, as the WHATWG parser applies to schemes. -/
def lowerChar (c : Char) : Char :=
  if 65 ≤ c.toNat ∧ c.toNat ≤ 90 then Char.ofNat (c.toNat + 32) else c

/-- The WHATWG special schemes relevant here (`file`, whose authority rules
differ, is left out; no claim involves it). -/
def specialScheme (s : Str) : Bool :=
  s = "http".data || s = "https".data || s = "ws".data || s = "wss".data || s = "ftp".data

/-- Scheme extraction: an ASCII-alphabetic first character, scheme characters
up to a `:`.  Returns the lower-cased scheme and the remainder. -/
def takeScheme (s : Str) : Option (Str × Str) :=
  match s with
  | [] => none
  | c :: _ =>
    if c.isAlpha then
      match s.dropWhile schemeChar with
      | ':' :: r => some ((s.takeWhile schemeChar).map lowerChar, r)
      | _ => none
    else none

/-- Delimiters ending the authority component. -/
def authDelim (c : Char) : Bool := c = '/' || c = '?' || c = '#'

/-- Delimiters ending the path component. -/
def pathDelim (c : Char) : Bool := c = '?' || c = '#'

/-- Model of `str::parse::<url::Url>()` (WHATWG basic URL parser) in the
aspects `check_uri` relies on: scheme extraction and lowering, the
special-scheme authority (any run of slashes after `scheme:` is skipped and a
non-empty host is required), hierarchical parsing for `//`-prefixed non-special
URLs, and opaque (`cannot_be_a_base`) parsing otherwise.  Dot-segment
resolution and host validation are omitted; no claim below depends on them. -/
def parseUrl (input : Str) : Except UrlCrateError Url :=
  match takeScheme input with
  | none => .error .RelativeUrlWithoutBase
  | some (scheme, rest) =>
    if specialScheme scheme then
      let rest1 := rest.dropWhile (fun c => c = '/' || c = '\\')
      let host := rest1.takeWhile (fun c => !authDelim c)
      let rest2 := rest1.dropWhile (fun c => !authDelim c)
      if host = [] then .error .EmptyHost
      else
        let rawPath := rest2.takeWhile (fun c => !pathDelim c)
        let rest3 := rest2.dropWhile (fun c => !pathDelim c)
        let query : Option Str :=
          match rest3 with
          | '?' :: q => some (encodeQuery (q.takeWhile (fun c => !(c = '#'))))
          | _ => none
        .ok { scheme := scheme, host := host,
              path := if rawPath = [] then ['/'] else encodePath rawPath,
              query := query, cannotBeABase := false }
    else
      match rest with
      | '/' :: '/' :: r =>
        let host := r.takeWhile (fun c => !authDelim c)
        let rest2 := r.dropWhile (fun c => !authDelim c)
        let rawPath := rest2.takeWhile (fun c => !pathDelim c)
        let rest3 := rest2.dropWhile (fun c => !pathDelim c)
        let query : Option Str :=
          match rest3 with
          | '?' :: q => some (encodeQuery (q.takeWhile (fun c => !(c = '#'))))
          | _ => none
        .ok { scheme := scheme, host := host,
              path := if rawPath = [] then ['/'] else encodePath rawPath,
              query := query, cannotBeABase := false }
      | _ =>
        let rawPath := rest.takeWhile (fun c => !pathDelim c)
        let rest3 := rest.dropWhile (fun c => !pathDelim c)
        let query : Option Str :=
          match rest3 with
          | '?' :: q => some (encodeQuery (q.takeWhile (fun c => !(c = '#'))))
          | _ => none
        .ok { scheme := scheme, host := [], path := encodePath rawPath,
              query := query, cannotBeABase := true }

deriving instance DecidableEq for Except

/-- The error enum of `src/errors.rs`. -/
inductive UrlParseError
  | NoPath
  | NotHttps
  | Parser (e : UrlCrateError)
deriving DecidableEq

/-- Translation of `check_uri` from `src/utils.rs`: trim trailing slashes,
parse, reject any scheme other than `https`. -/
def checkUri (uri : Str) : Except UrlParseError Url :=
  match parseUrl (trimEndSlashes uri) with
  | .error err => .error (.Parser err)
  | .ok u => if ¬(u.scheme = "https".data) then .error .NotHttps else .ok u

/-- Serialization of the URL, as `Url::to_string` used by `get_uri`. -/
def urlToString (u : Url) : Str :=
  u.scheme ++ ':' ::
    (if u.cannotBeABase then u.path else '/' :: '/' :: (u.host ++ u.path)) ++
    (match u.query with | none => [] | some q => '?' :: q)

/-- Models `Url::path_segments`: `None` exactly when the URL cannot be a base,
otherwise the path after the leading `/` split on `/`. -/
def pathSegments (u : Url) : Option (List Str) :=
  if u.cannotBeABase then none else some (splitc '/' (u.path.drop 1))

/-- Models `Url::set_path` on a URL with a host: percent-encode with the path
set and ensure a single leading slash. -/
def setPath (u : Url) (p : Str) : Url :=
  let e := encodePath p
  { u with path := if e.head? = some '/' then e else '/' :: e }

/-- Models `Url::set_query`: the given string is stored as the query after
percent-encoding with the query set (`&` and `=` pass through unescaped). -/
def setQuery (u : Url) (q : Option Str) : Url :=
  { u with query := q.map encodeQuery }

/-- Translation of `Firebase::at` from `src/lib.rs` (and the identical
`WithQueries::at` from `src/queries.rs`).  The Rust method takes `&mut self`
and returns `&mut Self`: the value returned here is the post-state of the
receiver, which is also what the returned handle points at.  `none` models
the `panic!("cannot be base")` branch. -/
def Url.atPath (u : Url) (path : Str) : Option Url :=
  match pathSegments u with
  | none => none
  | some segs =>
    let re_path := catStrs (segs.map (fun seg => stripJson seg ++ ['/']))
    let new_path := re_path ++ path
    some (setPath u (stripJson new_path ++ jsonSfx))

/-- Iterated navigation `at(p1).at(p2)...at(pn)`. -/
def atChain (u : Url) (ps : List Str) : Option Url :=
  match ps with
  | [] => some u
  | p :: rest =>
    match u.atPath p with
    | none => none
    | some u' => atChain u' rest

/-- Translation of `Firebase::add_param` from `src/lib.rs` (and the identical
`WithParams::add_param` from `src/params.rs`): append one form-urlencoded
`key=value` pair to the query string, with a `&` separator when the existing
query is non-empty.  The Rust method is generic over `T: ToString`; `value`
here is the result of that `to_string` call (`u32` renders in decimal, `bool`
as `true`/`false`, strings verbatim). -/
def Url.add_param (u : Url) (key value : Str) : Url :=
  let pair := formEncode key ++ '=' :: formEncode value
  let newq :=
    match u.query with
    | none => pair
    | some [] => pair
    | some q => q ++ '&' :: pair
  { u with query := some newq }

/-- Raw query pairs of a query string, mirroring how `form_urlencoded::parse`
delimits pairs: split on `&`, skip empty pieces, split each piece at its first
`=` (a piece without `=` gets an empty value).  Percent-decoding is not
applied: pairs are compared at the wire level. -/
def queryPairsOfStr (q : Str) : List (Str × Str) :=
  (splitc '&' q).filterMap (fun piece =>
    if piece = [] then none else some (splitFirst '=' piece))

/-- The query pairs of a URL (no query at all and an empty query both have none). -/
def queryPairs (u : Url) : List (Str × Str) :=
  queryPairsOfStr (match u.query with | none => [] | some q => q)

/-- Modelled from the spec: the constant `AUTH` lives in `src/constants.rs`,
which is not part of the provided sources; per the spec the auth constructor
"pre-attaches a query parameter literally named `auth`". -/
def AUTH : Str := "auth".data

/-- The `Firebase` value of `src/lib.rs`.  The `client: Client` field carries
no state observable at this level (`Client::default()`), so only the URL is
kept. -/
structure Firebase where
  uri : Url
deriving DecidableEq

/-- Translation of `Firebase::new`. -/
def Firebase.new (uri : Str) : Except UrlParseError Firebase :=
  match checkUri uri with
  | .ok u => .ok { uri := u }
  | .error err => .error err

/-- Translation of `Firebase::auth`: validate the URL, then
`uri.set_query(Some(&format!("{}={}", AUTH, auth_key)))`. -/
def Firebase.auth (uri : Str) (authKey : Str) : Except UrlParseError Firebase :=
  match checkUri uri with
  | .ok u => .ok { uri := setQuery u (some (AUTH ++ '=' :: authKey)) }
  | .error err => .error err

/-- Translation of `Firebase::get_uri`. -/
def Firebase.get_uri (fb : Firebase) : Str := urlToString fb.uri

/-- `Firebase::at` lifted to the `Firebase` value (post-state of the mutated
receiver, see `atPath`). -/
def Firebase.atPath (fb : Firebase) (path : Str) : Option Firebase :=
  match Url.atPath fb.uri path with
  | none => none
  | some u => some { uri := u }

/-- `Firebase::add_param` lifted to the `Firebase` value. -/
def Firebase.add_param (fb : Firebase) (key value : Str) : Firebase :=
  { uri := Url.add_param fb.uri key value }

/-- A path segment that percent-encoding leaves alone and that contains no
path delimiter: each character survives `encodePath` and is not `/`. -/
def plainSeg (s : Str) : Bool := s.all (fun c => !pEsc c && !(c = '/'))

/-- Normalization of root path segments: the path `/` parses into the single
empty segment, which disappears again on the first navigation. -/
def normSS (ss : List Str) : List Str := if ss = [[]] then [] else ss

/-- The `http::Method` values the code can dispatch (the standard set of
`http::Method`; extension methods are not needed by any claim). -/
inductive Method
  | GET | POST | PUT | PATCH | DELETE | HEAD | OPTIONS | TRACE | CONNECT
deriving DecidableEq

/-- The method enum of the `http_req`/`http_req_wasi` backend
(`http_req::request::Method`), which does include `PATCH`. -/
inductive ReqMethod
  | GET | HEAD | POST | PUT | DELETE | OPTIONS | PATCH
deriving DecidableEq

/-- Translation of the method-mapping chain in `src/clients/http_req_wasi.rs`
(`Client::send`): GET, POST, PUT, DELETE, HEAD and OPTIONS map to the backend
enum; every other method, `PATCH` included, falls into
`panic!("unspported method")`, modelled as `none`. -/
def wasiMapMethod : Method → Option ReqMethod
  | .GET => some .GET
  | .POST => some .POST
  | .PUT => some .PUT
  | .DELETE => some .DELETE
  | .HEAD => some .HEAD
  | .OPTIONS => some .OPTIONS
  | _ => none

/-- Translation of the method handling in `src/clients/reqwest.rs`
(`Client::send`): `req.method().to_owned()` is forwarded unchanged, with no
fatal branch for any method. -/
def reqwestMapMethod (m : Method) : Option Method := some m

/-- A minimal `serde_json::Value`; compound values are not needed by the
claims about body handling. -/
inductive Json
  | null
  | bool (b : Bool)
  | str (s : Str)
deriving DecidableEq

/-- Standard JSON encoding of the minimal value type (string escaping of
quote and backslash as serde_json emits them). -/
def jsonSerialize : Json → Str
  | .null => "null".data
  | .bool true => "true".data
  | .bool false => "false".data
  | .str s =>
      '"' :: catStrs (s.map (fun c => if c = '"' || c = '\\' then ['\\', c] else [c])) ++ ['"']

/-- Request payload produced by `src/clients/reqwest.rs`: the builder calls
`.json(req.body())` on the whole `Option<Value>`, so serde serializes `None`
as the JSON literal `null` — a payload is always sent. -/
def reqwestRequestBody (data : Option Json) : Option Str :=
  some (jsonSerialize (match data with | some v => v | none => Json.null))

/-- Request payload produced by `src/clients/http_req_wasi.rs`: the body
handling is commented out (`// TODO: body...`), so no payload is ever sent,
whatever the logical request carries. -/
def wasiRequestBody (_data : Option Json) : Option Str := none

/-- Outcome of a transport `send`: a deserialized success, a recoverable
backend error returned to the caller, or a fatal `panic!`/`unwrap` with its
message. -/
inductive SendOutcome (E T : Type)
  | ok (value : T)
  | err (e : E)
  | fatal (msg : Str)

/-- Whether an outcome is the fatal (panicking) one. -/
def SendOutcome.isFatal {E T : Type} : SendOutcome E T → Bool
  | .fatal _ => true
  | _ => false

/-- Whether an outcome is a recoverable, discriminated failure result. -/
def SendOutcome.isErrResult {E T : Type} : SendOutcome E T → Bool
  | .err _ => true
  | _ => false

/-- Translation of the response-decoding step of `src/clients/http_req_wasi.rs`:
`serde_json::from_slice::<T>(&writer).map_err(|e| format!("e: {}\nraw: {}", e,
String::from_utf8_lossy(&writer))).unwrap()`.  `decode` stands for the serde
decoder of the caller's type `T` (its error rendered as a string); a decode
failure panics with a message carrying the decode error and the raw response
text. -/
def wasiDecodeBody {T : Type} (decode : Str → Except Str T) (writer : Str) :
    SendOutcome Unit T :=
  match decode writer with
  | .ok v => .ok v
  | .error e => .fatal ("e: ".data ++ e ++ "\nraw: ".data ++ writer)

/-- Translation of the response-decoding step of `src/clients/reqwest.rs`:
`resp.json::<T>().await.unwrap()` — a decode failure panics with the reqwest
decode error; the raw response text is consumed and not part of the message. -/
def reqwestDecodeBody {T : Type} (decode : Str → Except Str T) (raw : Str) :
    SendOutcome Unit T :=
  match decode raw with
  | .ok v => .ok v
  | .error e => .fatal e

theorem takeWhile_append_all (P : Char → Bool) (xs ys : Str) (h : ∀ a ∈ xs, P a = true) :
    (xs ++ ys).takeWhile P = xs ++ ys.takeWhile P := by
  induction xs with
  | nil => simp
  | cons x xs ih =>
    have hx : P x = true := h x (by simp)
    simp only [List.cons_append, List.takeWhile_cons, hx, if_true]
    rw [ih (fun a ha => h a (by simp [ha]))]

theorem dropWhile_append_all (P : Char → Bool) (xs ys : Str) (h : ∀ a ∈ xs, P a = true) :
    (xs ++ ys).dropWhile P = ys.dropWhile P := by
  induction xs with
  | nil => simp
  | cons x xs ih =>
    have hx : P x = true := h x (by simp)
    simp only [List.cons_append, List.dropWhile_cons, hx, if_true]
    exact ih (fun a ha => h a (by simp [ha]))

theorem takeWhile_all (P : Char → Bool) (xs : Str) (h : ∀ a ∈ xs, P a = true) :
    xs.takeWhile P = xs := by
  have := takeWhile_append_all P xs [] h
  simpa using this

theorem dropWhile_all (P : Char → Bool) (xs : Str) (h : ∀ a ∈ xs, P a = true) :
    xs.dropWhile P = [] := by
  have := dropWhile_append_all P xs [] h
  simpa using this

theorem splitc_ne_nil (c : Char) (l : Str) : splitc c l ≠ [] := by
  induction l with
  | nil => simp [splitc]
  | cons x xs ih =>
    simp only [splitc]
    split
    · simp
    · split
      · simp
      · simp

theorem splitc_sep_cons (c : Char) (x y : Str) :
    splitc c (x ++ c :: y) = splitc c x ++ splitc c y := by
  induction x with
  | nil => simp [splitc]
  | cons a x ih =>
    simp only [List.cons_append, splitc]
    by_cases h : a = c
    · rw [if_pos h, if_pos h, show x.append (c :: y) = x ++ c :: y from rfl, ih]
      rfl
    · rw [if_neg h, if_neg h, show x.append (c :: y) = x ++ c :: y from rfl, ih]
      cases hx : splitc c x with
      | nil => exact absurd hx (splitc_ne_nil c x)
      | cons hd tl => simp

theorem splitc_no_sep (c : Char) (l : Str) (h : ∀ a ∈ l, ¬(a = c)) : splitc c l = [l] := by
  induction l with
  | nil => rfl
  | cons x xs ih =>
    have hx : ¬(x = c) := h x (by simp)
    simp only [splitc, if_neg hx, ih (fun a ha => h a (by simp [ha]))]

theorem joinc_cons_cons (c : Char) (s b : Str) (bs : List Str) :
    joinc c (s :: b :: bs) = s ++ c :: joinc c (b :: bs) := rfl

theorem joinc_append_last (c : Char) (L : List Str) (a : Str) (h : L ≠ []) :
    joinc c (L ++ [a]) = joinc c L ++ c :: a := by
  induction L with
  | nil => exact absurd rfl h
  | cons s L ih =>
    cases L with
    | nil => simp [joinc]
    | cons b bs =>
      rw [show (s :: b :: bs) ++ [a] = s :: b :: (bs ++ [a]) from rfl,
        joinc_cons_cons,
        show (b :: (bs ++ [a])) = (b :: bs) ++ [a] from rfl,
        ih (by simp), joinc_cons_cons]
      simp

theorem joinc_last_absorb (c : Char) (L : List Str) (z suf : Str) :
    joinc c (L ++ [z]) ++ suf = joinc c (L ++ [z ++ suf]) := by
  cases L with
  | nil => simp [joinc]
  | cons s L =>
    rw [joinc_append_last c (s :: L) z (by simp), joinc_append_last c (s :: L) (z ++ suf) (by simp)]
    simp

theorem splitc_joinc (c : Char) (L : List Str) (hne : L ≠ [])
    (h : ∀ s ∈ L, ∀ a ∈ s, ¬(a = c)) : splitc c (joinc c L) = L := by
  induction L with
  | nil => exact absurd rfl hne
  | cons s L ih =>
    cases L with
    | nil => exact splitc_no_sep c s (h s (by simp))
    | cons b bs =>
      rw [joinc_cons_cons, splitc_sep_cons, splitc_no_sep c s (h s (by simp)),
        ih (by simp) (fun t ht a ha => h t (by simp [ht]) a ha)]
      simp

theorem catStrs_append (A B : List Str) : catStrs (A ++ B) = catStrs A ++ catStrs B := by
  induction A with
  | nil => rfl
  | cons s A ih => simp [catStrs, ih]

theorem catStrs_map_sep (c : Char) (L : List Str) (h : L ≠ []) :
    catStrs (L.map (fun s => s ++ [c])) = joinc c L ++ [c] := by
  induction L with
  | nil => exact absurd rfl h
  | cons s L ih =>
    cases L with
    | nil => simp [catStrs, joinc]
    | cons b bs =>
      rw [List.map_cons, catStrs, ih (by simp), joinc_cons_cons]
      simp

theorem mem_joinc (c : Char) (a : Char) (L : List Str) (h : a ∈ joinc c L) :
    a = c ∨ ∃ s ∈ L, a ∈ s := by
  induction L with
  | nil => simp [joinc] at h
  | cons s L ih =>
    cases L with
    | nil =>
      right
      exact ⟨s, by simp, h⟩
    | cons b bs =>
      rw [joinc_cons_cons] at h
      rcases List.mem_append.1 h with hs | hrest
      · right; exact ⟨s, by simp, hs⟩
      · rcases List.mem_cons.1 hrest with hc | hr
        · left; exact hc
        · rcases ih hr with hc | ⟨t, ht, hat⟩
          · left; exact hc
          · right; exact ⟨t, by simp [ht], hat⟩

theorem trimEnd_slash (s : Str) : trimEndSlashes (s ++ ['/']) = trimEndSlashes s := by
  simp [trimEndSlashes, List.reverse_append, List.dropWhile_cons]

theorem trimEnd_no_slash (s : Str) (h : ¬(s.getLast? = some '/')) : trimEndSlashes s = s := by
  cases hr : s.reverse with
  | nil =>
    have hs : s = [] := List.reverse_eq_nil_iff.1 hr
    simp [trimEndSlashes, hs]
  | cons a t =>
    have ha : s.getLast? = some a := by
      rw [← List.head?_reverse, hr]; rfl
    have hane : ¬(a = '/') := fun hc => h (by rw [ha, hc])
    have : trimEndSlashes s = ((a :: t).dropWhile (fun c => c = '/')).reverse := by
      rw [trimEndSlashes, hr]
    rw [this, List.dropWhile_cons_of_neg (by simpa using hane), ← hr, List.reverse_reverse]

theorem stripRev_eq (l : Str) :
    stripRev l = if l.take 5 = jsonRev then stripRev (l.drop 5) else l := by
  rw [stripRev.eq_def]
  split
  · rename_i rest
    simp [jsonRev]
  · rename_i h
    by_cases ht : l.take 5 = jsonRev
    · exfalso
      have hl : l = 'n' :: 'o' :: 's' :: 'j' :: '.' :: l.drop 5 := by
        conv_lhs => rw [← List.take_append_drop 5 l]
        rw [ht]
        rfl
      exact h _ hl
    · rw [if_neg ht]

theorem length_ge_of_take_json (l : Str) (ht : l.take 5 = jsonRev) : 5 ≤ l.length := by
  by_contra hlt
  push_neg at hlt
  rw [List.take_of_length_le (by omega)] at ht
  have := congrArg List.length ht
  simp [jsonRev] at this
  omega

theorem stripRev_take_ne (l : Str) : ¬((stripRev l).take 5 = jsonRev) := by
  generalize hn : l.length = n
  induction n using Nat.strong_induction_on generalizing l with
  | _ n ih =>
    subst hn
    rw [stripRev_eq]
    by_cases ht : l.take 5 = jsonRev
    · rw [if_pos ht]
      have h5 := length_ge_of_take_json l ht
      exact ih (l.drop 5).length (by simp [List.length_drop]; omega) _ rfl
    · rw [if_neg ht]
      exact ht

theorem stripRev_of_ne (l : Str) (h : ¬(l.take 5 = jsonRev)) : stripRev l = l := by
  rw [stripRev_eq, if_neg h]

theorem stripRev_idem (l : Str) : stripRev (stripRev l) = stripRev l :=
  stripRev_of_ne _ (stripRev_take_ne l)

theorem stripRev_append_of_head (r m : Str) (hm : m.head? = some '/') :
    stripRev (r ++ m) = stripRev r ++ m := by
  obtain ⟨m0, rfl⟩ : ∃ t, m = '/' :: t := by
    cases m with
    | nil => simp at hm
    | cons a t =>
      simp only [List.head?_cons, Option.some.injEq] at hm
      exact ⟨t, by rw [hm]⟩
  generalize hn : r.length = n
  induction n using Nat.strong_induction_on generalizing r with
  | _ n ih =>
    subst hn
    by_cases ht : r.take 5 = jsonRev
    · have h5 := length_ge_of_take_json r ht
      rw [stripRev_eq (r ++ '/' :: m0)]
      rw [List.take_append_of_le_length h5, if_pos ht,
        List.drop_append_of_le_length h5,
        ih (r.drop 5).length (by simp [List.length_drop]; omega) _ rfl,
        stripRev_eq r, if_pos ht]
    · rw [stripRev_of_ne r ht]
      apply stripRev_of_ne
      intro hEq
      by_cases h5 : 5 ≤ r.length
      · rw [List.take_append_of_le_length h5] at hEq
        exact ht hEq
      · push_neg at h5
        have h1 : (r ++ '/' :: m0).take 5 = r ++ ('/' :: m0).take (5 - r.length) := by
          rw [List.take_append_eq_append_take, List.take_of_length_le (by omega)]
        have hsub : 1 ≤ 5 - r.length := by omega
        have hmem : '/' ∈ (r ++ '/' :: m0).take 5 := by
          rw [h1]
          apply List.mem_append_right
          cases h52 : 5 - r.length with
          | zero => omega
          | succ k => simp [List.take_cons]
        rw [hEq] at hmem
        simp [jsonRev] at hmem

theorem stripRev_drop (l : Str) : ∃ k, stripRev l = l.drop k := by
  generalize hn : l.length = n
  induction n using Nat.strong_induction_on generalizing l with
  | _ n ih =>
    subst hn
    by_cases ht : l.take 5 = jsonRev
    · have h5 := length_ge_of_take_json l ht
      obtain ⟨k, hk⟩ := ih (l.drop 5).length (by simp [List.length_drop]; omega) _ rfl
      refine ⟨5 + k, ?_⟩
      rw [stripRev_eq, if_pos ht, hk, List.drop_drop]
    · exact ⟨0, by rw [stripRev_of_ne l ht]; rfl⟩

theorem stripJson_append_slash (x p : Str) (hx : x.getLast? = some '/') :
    stripJson (x ++ p) = x ++ stripJson p := by
  unfold stripJson
  rw [List.reverse_append,
    stripRev_append_of_head _ _ (by rw [List.head?_reverse]; exact hx),
    List.reverse_append, List.reverse_reverse]

theorem stripJson_append_json (z : Str) : stripJson (z ++ jsonSfx) = stripJson z := by
  unfold stripJson
  rw [List.reverse_append, show jsonSfx.reverse = jsonRev from by decide]
  have ht : (jsonRev ++ z.reverse).take 5 = jsonRev := by
    rw [List.take_append_of_le_length (by simp [jsonRev])]
    decide
  rw [stripRev_eq, if_pos ht, List.drop_append_of_le_length (by simp [jsonRev])]
  simp [jsonRev]

theorem stripJson_idem (p : Str) : stripJson (stripJson p) = stripJson p := by
  unfold stripJson
  rw [List.reverse_reverse, stripRev_idem]

theorem mem_stripJson (a : Char) (p : Str) (h : a ∈ stripJson p) : a ∈ p := by
  obtain ⟨k, hk⟩ := stripRev_drop p.reverse
  unfold stripJson at h
  rw [hk, List.mem_reverse] at h
  have h2 : a ∈ p.reverse := List.drop_subset k p.reverse h
  rwa [List.mem_reverse] at h2

theorem plainSeg_mem (s : Str) (h : plainSeg s = true) (a : Char) (ha : a ∈ s) :
    pEsc a = false ∧ ¬(a = '/') := by
  unfold plainSeg at h
  rw [List.all_eq_true] at h
  have := h a ha
  simp only [Bool.and_eq_true, Bool.not_eq_true'] at this
  refine ⟨this.1, ?_⟩
  intro hc
  rw [hc] at this
  simp at this

theorem plainSeg_stripJson (p : Str) (h : plainSeg p = true) :
    plainSeg (stripJson p) = true := by
  unfold plainSeg
  rw [List.all_eq_true]
  intro a ha
  have h2 := plainSeg_mem p h a (mem_stripJson a p ha)
  simp only [Bool.and_eq_true, Bool.not_eq_true']
  exact ⟨h2.1, by simpa using h2.2⟩

theorem encodePath_eq_self (s : Str) (h : ∀ a ∈ s, pEsc a = false) : encodePath s = s := by
  induction s with
  | nil => rfl
  | cons a s ih =>
    have ha : pEsc a = false := h a (by simp)
    simp only [encodePath, List.map_cons, catStrs, ha, Bool.false_eq_true, if_false]
    rw [show catStrs ((s.map (fun c => if pEsc c then encChar c else [c]))) =
        encodePath s from rfl,
      ih (fun a ha => h a (by simp [ha]))]
    rfl

theorem joinc_head (c : Char) (s : Str) (L : List Str) (hs : s ≠ []) :
    (joinc c (s :: L)).head? = s.head? := by
  cases L with
  | nil => rfl
  | cons b bs =>
    rw [joinc_cons_cons]
    cases s with
    | nil => exact absurd rfl hs
    | cons a t => rfl

theorem normSS_of_ne (L : List Str) (h : ¬(L = [[]])) : normSS L = L := by
  simp [normSS, h]

theorem joinc_single_empty (c : Char) : joinc c [[]] = [] := rfl

theorem nosep_of_plain (L : List Str) (hLplain : ∀ s ∈ L, plainSeg s = true) :
    ∀ s ∈ L, ∀ a ∈ s, ¬(a = '/') :=
  fun s hs a ha => (plainSeg_mem s (hLplain s hs) a ha).2

theorem reJoin_eq (u : Url) (L : List Str)
    (hpath : u.path = '/' :: joinc '/' L ∨ u.path = '/' :: (joinc '/' L ++ jsonSfx))
    (hL : L ≠ [])
    (hLplain : ∀ s ∈ L, plainSeg s = true)
    (hLfix : ∀ s ∈ L, stripJson s = s) :
    catStrs ((splitc '/' (u.path.drop 1)).map (fun seg => stripJson seg ++ ['/'])) =
      joinc '/' L ++ ['/'] := by
  have hnosep := nosep_of_plain L hLplain
  rcases hpath with hp1 | hp2
  · rw [hp1]
    simp only [List.drop_succ_cons, List.drop_zero]
    rw [splitc_joinc '/' L hL hnosep,
      List.map_congr_left (fun s hs => by rw [hLfix s hs])]
    exact catStrs_map_sep '/' L hL
  · rcases List.eq_nil_or_concat L with rfl | ⟨M, z, rfl⟩
    · exact absurd rfl hL
    · simp only [List.concat_eq_append] at hL hLplain hLfix hnosep hp2 ⊢
      rw [hp2]
      simp only [List.drop_succ_cons, List.drop_zero]
      rw [joinc_last_absorb '/' M z jsonSfx]
      have hzmem : z ∈ M ++ [z] := by simp
      rw [splitc_joinc '/' (M ++ [z ++ jsonSfx]) (by simp) ?nosep]
      case nosep =>
        intro s hs a ha
        rcases List.mem_append.1 hs with hsM | hsz
        · exact hnosep s (by simp [hsM]) a ha
        · have hsz' : s = z ++ jsonSfx := by simpa using hsz
          subst hsz'
          rcases List.mem_append.1 ha with haz | hasfx
          · exact hnosep z hzmem a haz
          · revert hasfx
            have : ∀ b ∈ jsonSfx, ¬(b = '/') := by decide
            exact this a
      rw [List.map_append,
        List.map_congr_left (fun s hs => by rw [hLfix s (by simp [hs])])]
      have hzstr : stripJson (z ++ jsonSfx) = z := by
        rw [stripJson_append_json z, hLfix z hzmem]
      rw [show ([z ++ jsonSfx].map (fun seg => stripJson seg ++ ['/'])) =
          [z ++ ['/']] from by simp [hzstr]]
      rw [show (M.map (fun s => s ++ ['/'])) ++ [z ++ ['/']] =
          ((M ++ [z]).map (fun s => s ++ ['/'])) from by simp]
      exact catStrs_map_sep '/' (M ++ [z]) (by simp)

theorem atPath_step (u : Url) (L : List Str) (p : Str)
    (hb : u.cannotBeABase = false)
    (hpath : u.path = '/' :: joinc '/' L ∨ u.path = '/' :: (joinc '/' L ++ jsonSfx))
    (hL : L ≠ [])
    (hLplain : ∀ s ∈ L, plainSeg s = true)
    (hLfix : ∀ s ∈ L, stripJson s = s)
    (hLne : L = [[]] ∨ ∀ s ∈ L, ¬(s = []))
    (hp : plainSeg p = true) :
    u.atPath p =
      some { u with path := '/' :: (joinc '/' (normSS L ++ [stripJson p]) ++ jsonSfx) } := by
  have hre := reJoin_eq u L hpath hL hLplain hLfix
  have hsegs : pathSegments u = some (splitc '/' (u.path.drop 1)) := by
    simp [pathSegments, hb]
  have hstrip : stripJson ((joinc '/' L ++ ['/']) ++ p)
      = (joinc '/' L ++ ['/']) ++ stripJson p :=
    stripJson_append_slash _ _ (List.getLast?_concat _)
  have hplainA : ∀ a ∈ ((joinc '/' L ++ ['/']) ++ stripJson p) ++ jsonSfx, pEsc a = false := by
    intro a ha
    rcases List.mem_append.1 ha with h1 | hsfx
    · rcases List.mem_append.1 h1 with h2 | hsp'
      · rcases List.mem_append.1 h2 with hj | hslash
        · rcases mem_joinc '/' a L hj with rfl | ⟨s, hs, has⟩
          · decide
          · exact (plainSeg_mem s (hLplain s hs) a has).1
        · have haeq : a = '/' := by simpa using hslash
          subst haeq; decide
      · exact (plainSeg_mem p hp a (mem_stripJson a p hsp')).1
    · revert hsfx
      have hall : ∀ b ∈ jsonSfx, pEsc b = false := by decide
      exact hall a
  simp only [Url.atPath, hsegs]
  rw [hre, hstrip]
  simp only [setPath]
  rw [encodePath_eq_self _ hplainA]
  by_cases hL1 : L = [[]]
  · subst hL1
    rw [joinc_single_empty]
    have hnorm : normSS [[]] ++ [stripJson p] = [stripJson p] := by simp [normSS]
    rw [hnorm, show joinc '/' [stripJson p] = stripJson p from rfl]
    simp
  · have hall : ∀ s ∈ L, ¬(s = []) := hLne.resolve_left hL1
    cases L with
    | nil => exact absurd rfl hL
    | cons s0 L0 =>
      cases s0 with
      | nil => exact absurd rfl (hall [] (by simp))
      | cons a t =>
        have ha : ¬(a = '/') :=
          (plainSeg_mem (a :: t) (hLplain (a :: t) (by simp)) a (by simp)).2
        have h1 := joinc_head '/' (a :: t) L0 (by simp)
        have hXh : ((((joinc '/' ((a :: t) :: L0)) ++ ['/']) ++ stripJson p) ++ jsonSfx).head?
            = some a := by
          cases hj : joinc '/' ((a :: t) :: L0) with
          | nil => rw [hj] at h1; simp at h1
          | cons b bs =>
            rw [hj] at h1
            simp only [List.head?_cons, Option.some.injEq] at h1
            subst h1
            simp
        have hcond : ¬(((((joinc '/' ((a :: t) :: L0)) ++ ['/']) ++ stripJson p) ++
            jsonSfx).head? = some '/') := by
          rw [hXh]
          intro hcc
          exact ha (by injection hcc)
        rw [if_neg hcond, normSS_of_ne _ hL1,
          joinc_append_last '/' ((a :: t) :: L0) (stripJson p) hL]
        simp [List.append_assoc]

theorem atChain_spec (ps : List Str) : ∀ (u : Url) (L : List Str),
    u.cannotBeABase = false →
    (u.path = '/' :: joinc '/' L ∨ u.path = '/' :: (joinc '/' L ++ jsonSfx)) →
    L ≠ [] →
    (∀ s ∈ L, plainSeg s = true) →
    (∀ s ∈ L, stripJson s = s) →
    (L = [[]] ∨ ∀ s ∈ L, ¬(s = [])) →
    (∀ p ∈ ps, plainSeg p = true ∧ ¬(stripJson p = [])) →
    ps ≠ [] →
    atChain u ps =
      some { u with path := '/' :: (joinc '/' (normSS L ++ ps.map stripJson) ++ jsonSfx) } := by
  induction ps with
  | nil => exact fun u L _ _ _ _ _ _ _ hne => absurd rfl hne
  | cons p ps ih =>
    intro u L hb hpath hL hLp hLf hLn hps _
    have hstep := atPath_step u L p hb hpath hL hLp hLf hLn (hps p (by simp)).1
    simp only [atChain, hstep]
    have hspne : ¬(stripJson p = []) := (hps p (by simp)).2
    cases ps with
    | nil => simp [atChain]
    | cons q qs =>
      have hplain' : ∀ s ∈ normSS L ++ [stripJson p], plainSeg s = true := by
        intro s hs
        rcases List.mem_append.1 hs with hsn | hsp2
        · by_cases hL1 : L = [[]]
          · rw [hL1] at hsn; simp [normSS] at hsn
          · rw [normSS_of_ne L hL1] at hsn; exact hLp s hsn
        · have : s = stripJson p := by simpa using hsp2
          subst this
          exact plainSeg_stripJson p (hps p (by simp)).1
      have hfix' : ∀ s ∈ normSS L ++ [stripJson p], stripJson s = s := by
        intro s hs
        rcases List.mem_append.1 hs with hsn | hsp2
        · by_cases hL1 : L = [[]]
          · rw [hL1] at hsn; simp [normSS] at hsn
          · rw [normSS_of_ne L hL1] at hsn; exact hLf s hsn
        · have : s = stripJson p := by simpa using hsp2
          subst this
          exact stripJson_idem p
      have hnn' : ∀ s ∈ normSS L ++ [stripJson p], ¬(s = []) := by
        intro s hs
        rcases List.mem_append.1 hs with hsn | hsp2
        · by_cases hL1 : L = [[]]
          · rw [hL1] at hsn; simp [normSS] at hsn
          · rw [normSS_of_ne L hL1] at hsn
            exact (hLn.resolve_left hL1) s hsn
        · have : s = stripJson p := by simpa using hsp2
          subst this
          exact hspne
      have hne1 : ¬(normSS L ++ [stripJson p] = [[]]) := by
        intro hcc
        exact hnn' [] (by rw [hcc]; simp) rfl
      have happly := ih { u with
          path := '/' :: (joinc '/' (normSS L ++ [stripJson p]) ++ jsonSfx) }
        (normSS L ++ [stripJson p]) hb (Or.inr rfl) (by simp) hplain' hfix'
        (Or.inr hnn') (fun p' hp' => hps p' (by simp [hp'])) (by simp)
      rw [happly, normSS_of_ne _ hne1]
      simp [List.append_assoc]

theorem takeScheme_concrete (c0 : Char) (schRest rest : Str)
    (halpha : c0.isAlpha = true)
    (hchars : ∀ a ∈ c0 :: schRest, schemeChar a = true) :
    takeScheme ((c0 :: schRest) ++ ':' :: rest) =
      some ((c0 :: schRest).map lowerChar, rest) := by
  have hd : ((c0 :: schRest) ++ ':' :: rest).dropWhile schemeChar = ':' :: rest := by
    rw [dropWhile_append_all schemeChar _ _ hchars,
      List.dropWhile_cons_of_neg (by decide)]
  have htk : ((c0 :: schRest) ++ ':' :: rest).takeWhile schemeChar = c0 :: schRest := by
    rw [takeWhile_append_all schemeChar _ _ hchars,
      List.takeWhile_cons_of_neg (by decide)]
    simp
  rw [show (c0 :: schRest) ++ ':' :: rest = c0 :: (schRest ++ ':' :: rest) from rfl] at hd htk ⊢
  simp only [takeScheme, halpha, if_true, hd, htk]

theorem parseUrl_special (c0 : Char) (schRest host pth : Str)
    (halpha : c0.isAlpha = true)
    (hchars : ∀ a ∈ c0 :: schRest, schemeChar a = true)
    (hlower : (c0 :: schRest).map lowerChar = c0 :: schRest)
    (hspec : specialScheme (c0 :: schRest) = true)
    (hhne : ¬(host = []))
    (hhost : ∀ a ∈ host, (!authDelim a && !(a = '\\')) = true)
    (hpth : ∀ a ∈ pth, (!pathDelim a) = true) :
    parseUrl ((c0 :: schRest) ++ ':' :: '/' :: '/' :: (host ++ '/' :: pth)) =
      .ok { scheme := c0 :: schRest, host := host,
            path := encodePath ('/' :: pth), query := none, cannotBeABase := false } := by
  have hrest1 : ('/' :: '/' :: (host ++ '/' :: pth)).dropWhile
      (fun c => c = '/' || c = '\\') = host ++ '/' :: pth := by
    rw [List.dropWhile_cons_of_pos (by decide), List.dropWhile_cons_of_pos (by decide)]
    cases host with
    | nil => exact absurd rfl hhne
    | cons h0 hs =>
      rw [List.cons_append]
      apply List.dropWhile_cons_of_neg
      have hh := hhost h0 (by simp)
      simp only [Bool.and_eq_true, Bool.not_eq_true'] at hh
      simp only [Bool.or_eq_true, decide_eq_true_eq, not_or]
      constructor
      · intro hc
        rw [hc] at hh
        simp [authDelim] at hh
      · intro hc
        rw [hc] at hh
        simp at hh
  have hhostdelim : ∀ a ∈ host, (!authDelim a) = true := by
    intro a ha
    have hh := hhost a ha
    simp only [Bool.and_eq_true] at hh
    exact hh.1
  have hhost' : (host ++ '/' :: pth).takeWhile (fun c => !authDelim c) = host := by
    rw [takeWhile_append_all _ _ _ hhostdelim, List.takeWhile_cons_of_neg (by decide)]
    simp
  have hrest2 : (host ++ '/' :: pth).dropWhile (fun c => !authDelim c) = '/' :: pth := by
    rw [dropWhile_append_all _ _ _ hhostdelim, List.dropWhile_cons_of_neg (by decide)]
  have hrawPath : ('/' :: pth).takeWhile (fun c => !pathDelim c) = '/' :: pth := by
    rw [List.takeWhile_cons_of_pos (by decide), takeWhile_all _ _ hpth]
  have hrest3 : ('/' :: pth).dropWhile (fun c => !pathDelim c) = [] := by
    rw [List.dropWhile_cons_of_pos (by decide), dropWhile_all _ _ hpth]
  have hshape : (c0 :: schRest) ++ ':' :: '/' :: '/' :: (host ++ '/' :: pth) =
      (c0 :: schRest) ++ ':' :: ('/' :: '/' :: (host ++ '/' :: pth)) := rfl
  rw [hshape]
  simp only [parseUrl, takeScheme_concrete c0 schRest _ halpha hchars, hlower, hspec,
    if_true, hrest1, hhost', hrest2, hrawPath, hrest3, hhne]
  simp [hhne, show ¬('/' :: pth = []) from by simp]

theorem parseUrl_https_base (x : Str) (u : Url) (h : parseUrl x = .ok u)
    (hs : u.scheme = "https".data) : u.cannotBeABase = false := by
  simp only [parseUrl] at h
  cases htk : takeScheme x with
  | none =>
    rw [htk] at h
    exact Except.noConfusion h
  | some pr =>
    obtain ⟨sch, rest⟩ := pr
    rw [htk] at h
    simp only at h
    by_cases hsp : specialScheme sch = true
    · rw [if_pos hsp] at h
      split at h
      · exact Except.noConfusion h
      · have := Except.ok.inj h
        rw [← this]
    · rw [if_neg hsp] at h
      split at h
      · have := Except.ok.inj h
        rw [← this]
      · have hu := Except.ok.inj h
        exfalso
        apply hsp
        have hsch : sch = "https".data := by
          rw [← hu] at hs
          exact hs
        rw [hsch]
        decide

theorem getLast_through (pre host pth : Str) (hpne : ¬(pth = [])) :
    ((pre ++ host) ++ '/' :: pth).getLast? = pth.getLast? := by
  cases hgl : pth.getLast? with
  | none =>
    exact absurd (List.getLast?_eq_none_iff.1 hgl) hpne
  | some x =>
    rw [show (pre ++ host) ++ '/' :: pth = ((pre ++ host) ++ ['/']) ++ pth from by simp,
      List.getLast?_append, hgl]
    rfl

theorem formEncode_eq_self (s : Str) (h : ∀ a ∈ s, formSafe a = true) : formEncode s = s := by
  induction s with
  | nil => rfl
  | cons a s ih =>
    have ha : formSafe a = true := h a (by simp)
    simp only [formEncode, List.map_cons, catStrs, ha, if_true]
    rw [show catStrs (s.map (fun c => if formSafe c then [c]
        else if c = ' ' then ['+'] else encChar c)) = formEncode s from rfl,
      ih (fun a ha => h a (by simp [ha]))]
    rfl

theorem encodeQuery_eq_self (s : Str) (h : ∀ a ∈ s, qEsc a = false) : encodeQuery s = s := by
  induction s with
  | nil => rfl
  | cons a s ih =>
    have ha : qEsc a = false := h a (by simp)
    simp only [encodeQuery, List.map_cons, catStrs, ha, Bool.false_eq_true, if_false]
    rw [show catStrs (s.map (fun c => if qEsc c then encChar c else [c]))
        = encodeQuery s from rfl,
      ih (fun a ha => h a (by simp [ha]))]
    rfl

theorem formSafe_not_special (a : Char) (h : formSafe a = true) :
    ¬(a = '&') ∧ ¬(a = '=') := by
  constructor
  · intro hc
    rw [hc] at h
    exact absurd h (by decide)
  · intro hc
    rw [hc] at h
    exact absurd h (by decide)

theorem splitFirst_no_sep_append (c : Char) (k v : Str) (hk : ∀ a ∈ k, ¬(a = c)) :
    splitFirst c (k ++ c :: v) = (k, v) := by
  induction k with
  | nil => simp [splitFirst]
  | cons a k ih =>
    have ha : ¬(a = c) := hk a (by simp)
    simp only [List.cons_append, splitFirst, if_neg ha]
    rw [show k.append (c :: v) = k ++ c :: v from rfl,
      ih (fun a hak => hk a (by simp [hak]))]

theorem queryPairsOfStr_nil : queryPairsOfStr [] = [] := rfl

theorem queryPairsOfStr_single (k v : Str)
    (hk : ∀ a ∈ k, formSafe a = true) (hv : ∀ a ∈ v, formSafe a = true) :
    queryPairsOfStr (k ++ '=' :: v) = [(k, v)] := by
  unfold queryPairsOfStr
  have hnosep : ∀ a ∈ k ++ '=' :: v, ¬(a = '&') := by
    intro a ha
    rcases List.mem_append.1 ha with hak | hav
    · exact (formSafe_not_special a (hk a hak)).1
    · rcases List.mem_cons.1 hav with rfl | hav'
      · decide
      · exact (formSafe_not_special a (hv a hav')).1
  rw [splitc_no_sep '&' _ hnosep]
  have hpne : ¬(k ++ '=' :: v = []) := by simp
  simp only [List.filterMap_cons, hpne, if_neg, List.filterMap_nil,
    splitFirst_no_sep_append '=' k v (fun a ha => (formSafe_not_special a (hk a ha)).2)]
  simp [hpne]

theorem queryPairsOfStr_append (q k v : Str)
    (hk : ∀ a ∈ k, formSafe a = true) (hv : ∀ a ∈ v, formSafe a = true) :
    queryPairsOfStr (q ++ '&' :: (k ++ '=' :: v)) = queryPairsOfStr q ++ [(k, v)] := by
  have h2 := queryPairsOfStr_single k v hk hv
  unfold queryPairsOfStr at h2 ⊢
  rw [splitc_sep_cons, List.filterMap_append, h2]

theorem add_param_pairs_one (u : Url) (k v : Str)
    (hk : ∀ a ∈ k, formSafe a = true) (hv : ∀ a ∈ v, formSafe a = true) :
    queryPairs (u.add_param k v) = queryPairs u ++ [(k, v)] := by
  have hfk := formEncode_eq_self k hk
  have hfv := formEncode_eq_self v hv
  cases hq : u.query with
  | none =>
    simp only [Url.add_param, queryPairs, hq, hfk, hfv]
    rw [queryPairsOfStr_single k v hk hv, queryPairsOfStr_nil]
    rfl
  | some q =>
    cases q with
    | nil =>
      simp only [Url.add_param, queryPairs, hq, hfk, hfv]
      rw [queryPairsOfStr_single k v hk hv, queryPairsOfStr_nil]
      rfl
    | cons c qs =>
      simp only [Url.add_param, queryPairs, hq, hfk, hfv]
      rw [queryPairsOfStr_append (c :: qs) k v hk hv]

/-- C1: for every root Endpoint whose stored path splits into plain segments
(the freshly-constructed host-only root has the single empty segment) and
every chain `at(p1)...at(pn)` of plain segments, the resulting path is the
root path with the suffix-stripped segments appended in order, each exactly
once, with the `.json` suffix on the final segment only — also when some `pi`
already end in `.json`; and concretely
`root.at("users").at("42")` on `https://example.firebaseio.com` yields
`https://example.firebaseio.com/users/42.json`. -/
theorem at_appends_segments :
    (∀ (u : Url) (L : List Str) (ps : List Str),
      u.cannotBeABase = false →
      u.path = '/' :: joinc '/' L →
      L ≠ [] →
      (∀ s ∈ L, plainSeg s = true) →
      (∀ s ∈ L, stripJson s = s) →
      (L = [[]] ∨ ∀ s ∈ L, ¬(s = [])) →
      (∀ p ∈ ps, plainSeg p = true ∧ ¬(stripJson p = [])) →
      ps ≠ [] →
      atChain u ps =
        some { u with
          path := '/' :: (joinc '/' (normSS L ++ ps.map stripJson) ++ jsonSfx) }) ∧
    (Firebase.new "https://example.firebaseio.com".data).map
        (fun fb => ((fb.atPath "users".data).bind (fun fb2 => fb2.atPath "42".data)).map
          Firebase.get_uri)
      = .ok (some "https://example.firebaseio.com/users/42.json".data) := by
  constructor
  · intro u L ps hb hpath hL hLp hLf hLn hps hne
    exact atChain_spec ps u L hb (Or.inl hpath) hL hLp hLf hLn hps hne
  · decide

/-- Witness for C1: the general theorem applied to the concrete root
`https://example.firebaseio.com` and the chain `["users", "42"]`. -/
theorem at_appends_segments_witness :
    atChain { scheme := "https".data, host := "example.firebaseio.com".data,
              path := ['/'], query := none, cannotBeABase := false }
      ["users".data, "42".data] =
      some { scheme := "https".data, host := "example.firebaseio.com".data,
             path := '/' :: (joinc '/' (normSS [[]] ++
               (["users".data, "42".data]).map stripJson) ++ jsonSfx),
             query := none, cannotBeABase := false } :=
  at_appends_segments.1
    { scheme := "https".data, host := "example.firebaseio.com".data,
      path := ['/'], query := none, cannotBeABase := false }
    [[]] ["users".data, "42".data]
    rfl rfl (by simp) (by decide) (by decide) (Or.inl rfl) (by decide) (by simp)

/-- C2 counterexample: `Firebase::at` takes `&mut self` and mutates the
receiver in place (its return value is the mutated receiver), so after
`child = parent.at("users")` the parent's URL is not its old value: the claim
that the parent's URL is unchanged is false on the concrete root
`https://example.firebaseio.com`. -/
theorem at_mutates_parent_cex :
    (Firebase.new "https://example.firebaseio.com".data).map
        (fun parent => decide ((parent.atPath "users".data).map Firebase.get_uri
          = some parent.get_uri))
      = .ok false := by decide

/-- C2 amended: `at` mutates the endpoint in place and returns it; after
`parent.at(x)` the parent holds the navigated URL (identical to the child's,
which aliases it), which differs from the parent's previous URL. -/
theorem at_mutates_parent (u : Url) (L : List Str) (p : Str)
    (hb : u.cannotBeABase = false)
    (hpath : u.path = '/' :: joinc '/' L ∨ u.path = '/' :: (joinc '/' L ++ jsonSfx))
    (hL : L ≠ [])
    (hLplain : ∀ s ∈ L, plainSeg s = true)
    (hLfix : ∀ s ∈ L, stripJson s = s)
    (hLne : L = [[]] ∨ ∀ s ∈ L, ¬(s = []))
    (hp : plainSeg p = true) (hsp : ¬(stripJson p = [])) :
    u.atPath p =
      some { u with path := '/' :: (joinc '/' (normSS L ++ [stripJson p]) ++ jsonSfx) } ∧
    ¬(('/' :: (joinc '/' (normSS L ++ [stripJson p]) ++ jsonSfx)) = u.path) := by
  refine ⟨atPath_step u L p hb hpath hL hLplain hLfix hLne hp, ?_⟩
  intro hEq
  have hsplen : 0 < (stripJson p).length := List.length_pos.2 hsp
  have hlen := congrArg List.length hEq
  by_cases hL1 : L = [[]]
  · subst hL1
    rw [show normSS [[]] ++ [stripJson p] = [stripJson p] from by simp [normSS],
      show joinc '/' [stripJson p] = stripJson p from rfl] at hlen
    rcases hpath with h1 | h1 <;>
      rw [h1] at hlen <;>
      simp only [joinc_single_empty, List.length_cons, List.length_append, List.length_nil,
        show jsonSfx.length = 5 from rfl] at hlen <;>
      omega
  · rw [normSS_of_ne _ hL1, joinc_append_last '/' L (stripJson p) hL] at hlen
    rcases hpath with h1 | h1 <;>
      rw [h1] at hlen <;>
      simp only [List.length_cons, List.length_append,
        show jsonSfx.length = 5 from rfl] at hlen <;>
      omega

/-- Witness for C2's amended theorem at the concrete root. -/
theorem at_mutates_parent_witness :
    Url.atPath { scheme := "https".data, host := "example.firebaseio.com".data,
                 path := ['/'], query := none, cannotBeABase := false } "users".data =
      some { scheme := "https".data, host := "example.firebaseio.com".data,
             path := '/' :: (joinc '/' (normSS [[]] ++ [stripJson "users".data]) ++ jsonSfx),
             query := none, cannotBeABase := false } ∧
    ¬(('/' :: (joinc '/' (normSS [[]] ++ [stripJson "users".data]) ++ jsonSfx)) =
      (['/'] : Str)) :=
  at_mutates_parent
    { scheme := "https".data, host := "example.firebaseio.com".data,
      path := ['/'], query := none, cannotBeABase := false }
    [[]] "users".data
    rfl (Or.inl rfl) (by simp) (by decide) (by decide) (Or.inl rfl) (by decide) (by decide)

/-- C3: for any host (non-empty, free of authority delimiters) and any path
(free of query/fragment delimiters, not ending in a slash), constructing
`http://host/path` always fails with the NotHttps error and constructing
`https://host/path` always succeeds; both failure modes of `check_uri` are
values of the `UrlParseError` result type (the function is total), not fatal
faults. -/
theorem checkUri_http_https (host pth : Str)
    (hhne : ¬(host = []))
    (hhost : ∀ a ∈ host, (!authDelim a && !(a = '\\')) = true)
    (hpth : ∀ a ∈ pth, (!pathDelim a) = true)
    (hpne : ¬(pth = [])) (hlast : ¬(pth.getLast? = some '/')) :
    checkUri ("http://".data ++ (host ++ '/' :: pth)) = .error .NotHttps ∧
    checkUri ("https://".data ++ (host ++ '/' :: pth)) =
      .ok { scheme := "https".data, host := host, path := encodePath ('/' :: pth),
            query := none, cannotBeABase := false } := by
  have hshape : ∀ pre : Str, pre ++ (host ++ '/' :: pth) = (pre ++ host) ++ '/' :: pth := by
    intro pre
    simp
  have htrim1 : trimEndSlashes ("http://".data ++ (host ++ '/' :: pth))
      = "http://".data ++ (host ++ '/' :: pth) := by
    apply trimEnd_no_slash
    rw [hshape, getLast_through "http://".data host pth hpne]
    exact hlast
  have htrim2 : trimEndSlashes ("https://".data ++ (host ++ '/' :: pth))
      = "https://".data ++ (host ++ '/' :: pth) := by
    apply trimEnd_no_slash
    rw [hshape, getLast_through "https://".data host pth hpne]
    exact hlast
  have hparse1 : parseUrl ("http://".data ++ (host ++ '/' :: pth)) =
      .ok { scheme := "http".data, host := host, path := encodePath ('/' :: pth),
            query := none, cannotBeABase := false } := by
    rw [show ("http://".data : Str) = ('h' :: "ttp".data) ++ [':', '/', '/'] from by decide,
      List.append_assoc,
      show (([':', '/', '/'] : Str) ++ (host ++ '/' :: pth))
        = ':' :: '/' :: '/' :: (host ++ '/' :: pth) from rfl]
    have h := parseUrl_special 'h' "ttp".data host pth (by decide) (by decide)
      (by decide) (by decide) hhne hhost hpth
    rw [h]
  have hparse2 : parseUrl ("https://".data ++ (host ++ '/' :: pth)) =
      .ok { scheme := "https".data, host := host, path := encodePath ('/' :: pth),
            query := none, cannotBeABase := false } := by
    rw [show ("https://".data : Str) = ('h' :: "ttps".data) ++ [':', '/', '/'] from by decide,
      List.append_assoc,
      show (([':', '/', '/'] : Str) ++ (host ++ '/' :: pth))
        = ':' :: '/' :: '/' :: (host ++ '/' :: pth) from rfl]
    have h := parseUrl_special 'h' "ttps".data host pth (by decide) (by decide)
      (by decide) (by decide) hhne hhost hpth
    rw [h]
  constructor
  · simp only [checkUri, htrim1, hparse1]
    rw [if_pos (by decide)]
  · simp only [checkUri, htrim2, hparse2]
    simp

/-- Witness for C3 at `host = "host"`, `path = "path"`. -/
theorem checkUri_http_https_witness :
    checkUri ("http://".data ++ ("host".data ++ '/' :: "path".data)) = .error .NotHttps ∧
    checkUri ("https://".data ++ ("host".data ++ '/' :: "path".data)) =
      .ok { scheme := "https".data, host := "host".data,
            path := encodePath ('/' :: "path".data), query := none,
            cannotBeABase := false } :=
  checkUri_http_https "host".data "path".data (by decide) (by decide) (by decide)
    (by decide) (by decide)

/-- C4: appending one or two trailing slashes to any base URL string does not
change the result of construction at all — `check_uri` trims trailing slashes
before parsing, so the same canonical URL (or the same error) results. -/
theorem checkUri_trailing_slashes (s : Str) :
    checkUri (s ++ ['/']) = checkUri s ∧ checkUri (s ++ ['/', '/']) = checkUri s := by
  have h2 : trimEndSlashes (s ++ ['/', '/']) = trimEndSlashes s := by
    rw [show s ++ ['/', '/'] = (s ++ ['/']) ++ ['/'] from by simp, trimEnd_slash, trimEnd_slash]
  constructor
  · unfold checkUri
    rw [trimEnd_slash]
  · unfold checkUri
    rw [h2]

/-- C5: one `add_param` call appends exactly one query pair holding the
stringified value (the Rust method converts its `T: ToString` argument first:
`u32` renders in decimal, `bool` as `true`/`false`, strings verbatim; `key`
and `value` here stand for those rendered strings); calling it twice with the
same key accumulates two pairs in call order — no deduplication. -/
theorem add_param_appends_pairs (u : Url) (k v1 v2 : Str)
    (hk : ∀ a ∈ k, formSafe a = true)
    (hv1 : ∀ a ∈ v1, formSafe a = true)
    (hv2 : ∀ a ∈ v2, formSafe a = true) :
    queryPairs (u.add_param k v1) = queryPairs u ++ [(k, v1)] ∧
    queryPairs ((u.add_param k v1).add_param k v2) = queryPairs u ++ [(k, v1), (k, v2)] := by
  refine ⟨add_param_pairs_one u k v1 hk hv1, ?_⟩
  rw [add_param_pairs_one _ k v2 hk hv2, add_param_pairs_one u k v1 hk hv1]
  simp

/-- Witness for C5 on the concrete root with `orderBy` twice. -/
theorem add_param_appends_pairs_witness :
    queryPairs (Url.add_param
        { scheme := "https".data, host := "example.firebaseio.com".data,
          path := ['/'], query := none, cannotBeABase := false }
        "orderBy".data "name".data) =
      queryPairs { scheme := "https".data, host := "example.firebaseio.com".data,
                   path := ['/'], query := none, cannotBeABase := false }
        ++ [("orderBy".data, "name".data)] ∧
    queryPairs (Url.add_param (Url.add_param
        { scheme := "https".data, host := "example.firebaseio.com".data,
          path := ['/'], query := none, cannotBeABase := false }
        "orderBy".data "name".data) "orderBy".data "age".data) =
      queryPairs { scheme := "https".data, host := "example.firebaseio.com".data,
                   path := ['/'], query := none, cannotBeABase := false }
        ++ [("orderBy".data, "name".data), ("orderBy".data, "age".data)] :=
  add_param_appends_pairs
    { scheme := "https".data, host := "example.firebaseio.com".data,
      path := ['/'], query := none, cannotBeABase := false }
    "orderBy".data "name".data "age".data (by decide) (by decide) (by decide)

/-- C6 counterexample: `Firebase::auth` builds the query with
`set_query(Some("auth=" + key))`, so a key containing `&` is split into
several pairs: for `key = "a&auth=b"` the resulting query holds the two pairs
`auth=a` and `auth=b`, and zero pairs equal to `auth=key` — not exactly one. -/
theorem auth_query_pair_cex :
    (Firebase.auth "https://example.firebaseio.com".data "a&auth=b".data).map
        (fun fb => queryPairs fb.uri) =
      .ok [("auth".data, "a".data), ("auth".data, "b".data)] ∧
    (Firebase.auth "https://example.firebaseio.com".data "a&auth=b".data).map
        (fun fb => (queryPairs fb.uri).countP
          (fun pr => decide (pr = (AUTH, "a&auth=b".data)))) = .ok 0 := by
  constructor
  · decide
  · decide

/-- C6 amended: for every URL accepted by construction and every auth key
that the query encoding leaves verbatim and that contains no `&`, the
endpoint built by `auth` has exactly one query pair `auth=key`. -/
theorem auth_single_pair (url authKey : Str) (u : Url)
    (h : checkUri url = .ok u)
    (hkq : ∀ a ∈ authKey, qEsc a = false)
    (hkamp : ∀ a ∈ authKey, ¬(a = '&')) :
    ∃ fb, Firebase.auth url authKey = .ok fb ∧ queryPairs fb.uri = [(AUTH, authKey)] := by
  refine ⟨{ uri := setQuery u (some (AUTH ++ '=' :: authKey)) }, ?_, ?_⟩
  · unfold Firebase.auth
    rw [h]
  · show queryPairsOfStr (encodeQuery (AUTH ++ '=' :: authKey)) = [(AUTH, authKey)]
    rw [encodeQuery_eq_self _ ?hq]
    case hq =>
      intro a ha
      rcases List.mem_append.1 ha with haa | hae
      · revert haa
        have hauth : ∀ b ∈ AUTH, qEsc b = false := by decide
        exact hauth a
      · rcases List.mem_cons.1 hae with rfl | hak
        · decide
        · exact hkq a hak
    unfold queryPairsOfStr
    rw [splitc_no_sep '&' _ ?namp]
    case namp =>
      intro a ha
      rcases List.mem_append.1 ha with haa | hae
      · revert haa
        have hauth : ∀ b ∈ AUTH, ¬(b = '&') := by decide
        exact hauth a
      · rcases List.mem_cons.1 hae with rfl | hak
        · decide
        · exact hkamp a hak
    rw [List.filterMap_cons]
    simp only [List.filterMap_nil]
    rw [if_neg (by simp)]
    rw [splitFirst_no_sep_append '=' AUTH authKey (by decide)]

/-- Witness for C6's amended theorem at the repository's own doc-test key. -/
theorem auth_single_pair_witness :
    ∃ fb, Firebase.auth "https://example.firebaseio.com".data "my_auth_key".data = .ok fb ∧
      queryPairs fb.uri = [(AUTH, "my_auth_key".data)] :=
  auth_single_pair "https://example.firebaseio.com".data "my_auth_key".data
    { scheme := "https".data, host := "example.firebaseio.com".data,
      path := ['/'], query := none, cannotBeABase := false }
    (by decide) (by decide) (by decide)

/-- C7 counterexample: on a concrete response whose payload does not decode
into the requested type, both backends raise the failure as a fatal
`unwrap`/panic — neither returns it as a recoverable, discriminated failure
result, so the claim is false as stated. -/
theorem decode_failure_cex :
    (wasiDecodeBody
        (fun _ => (.error "invalid type: integer 1, expected a string".data : Except Str Unit))
        "\x7b\"name\":1\x7d".data).isFatal = true ∧
    (wasiDecodeBody
        (fun _ => (.error "invalid type: integer 1, expected a string".data : Except Str Unit))
        "\x7b\"name\":1\x7d".data).isErrResult = false ∧
    (reqwestDecodeBody
        (fun _ => (.error "error decoding response body".data : Except Str Unit))
        "\x7b\"name\":1\x7d".data).isFatal = true := by
  refine ⟨rfl, rfl, rfl⟩

/-- C7 amended: a decode failure is never silently swallowed, but it is raised
as a fatal panic rather than returned: the sandboxed (`http_req_wasi`) backend
panics with a message carrying both the decode error and the raw response
text, while the `reqwest` backend's panic carries the decode error only. -/
theorem decode_failure_fatal {T : Type} (decode : Str → Except Str T) (writer e : Str)
    (h : decode writer = .error e) :
    wasiDecodeBody decode writer =
      .fatal ("e: ".data ++ e ++ "\nraw: ".data ++ writer) ∧
    reqwestDecodeBody decode writer = .fatal e := by
  constructor
  · simp [wasiDecodeBody, h]
  · simp [reqwestDecodeBody, h]

/-- Witness for C7's amended theorem on a concrete failing decode. -/
theorem decode_failure_fatal_witness :
    wasiDecodeBody (fun _ => (.error "expected a string".data : Except Str Unit)) "1".data =
      .fatal ("e: ".data ++ "expected a string".data ++ "\nraw: ".data ++ "1".data) ∧
    reqwestDecodeBody (fun _ => (.error "expected a string".data : Except Str Unit)) "1".data =
      .fatal "expected a string".data :=
  decode_failure_fatal (fun _ => (.error "expected a string".data : Except Str Unit))
    "1".data "expected a string".data rfl

/-- C8: the claim's closed method set is not mapped in full — the
`http_req_wasi` backend maps GET, POST, PUT, DELETE, HEAD and OPTIONS but
panics (`unspported method`) on PATCH, the very method the library's own
`update` operation sends; and the `reqwest` backend forwards methods outside
the set (such as TRACE) without any fatal branch. -/
theorem wasi_method_map_patch :
    wasiMapMethod Method.PATCH = none ∧
    ([Method.GET, Method.POST, Method.PUT, Method.DELETE, Method.HEAD,
        Method.OPTIONS].all (fun m => (wasiMapMethod m).isSome)) = true ∧
    reqwestMapMethod Method.TRACE = some Method.TRACE := by
  refine ⟨rfl, by decide, rfl⟩

/-- C9: body handling diverges from the claim in both backends — the
`http_req_wasi` backend never sends a payload (its body code is an unfinished
`TODO`), and the `reqwest` backend serializes the whole `Option<Value>`, so a
body of `None` sends the JSON literal `null` instead of no payload (a present
body is serialized with standard JSON encoding, as the third conjunct shows). -/
theorem body_handling_divergence :
    wasiRequestBody (some (Json.str "x".data)) = none ∧
    reqwestRequestBody none = some "null".data ∧
    reqwestRequestBody (some (Json.str "a".data)) = some ('"' :: "a".data ++ ['"']) := by
  refine ⟨rfl, by decide, by decide⟩

/-- C10: every successfully constructed URL has the `https` scheme, which the
parser always builds as a hierarchical (not cannot-be-a-base) URL, so
`path_segments` is always available and `at` can never reach its
`panic!("cannot be base")` branch. -/
theorem https_always_hierarchical (s : Str) (u : Url) (h : checkUri s = .ok u) :
    ¬(pathSegments u = none) ∧ ∀ p, (u.atPath p).isSome = true := by
  have hb : u.cannotBeABase = false := by
    unfold checkUri at h
    cases hp : parseUrl (trimEndSlashes s) with
    | error e =>
      rw [hp] at h
      exact Except.noConfusion h
    | ok v =>
      rw [hp] at h
      have h2 : (if ¬(v.scheme = "https".data) then (Except.error UrlParseError.NotHttps)
          else Except.ok v) = Except.ok u := h
      by_cases hs : ¬(v.scheme = "https".data)
      · rw [if_pos hs] at h2
        exact Except.noConfusion h2
      · rw [if_neg hs] at h2
        have hvu := Except.ok.inj h2
        push_neg at hs
        rw [← hvu]
        exact parseUrl_https_base _ v hp hs
  constructor
  · simp [pathSegments, hb]
  · intro p
    simp [Url.atPath, pathSegments, hb]

/-- Witness for C10 at the concrete root URL. -/
theorem https_always_hierarchical_witness :
    ¬(pathSegments { scheme := "https".data, host := "example.firebaseio.com".data,
                     path := ['/'], query := none, cannotBeABase := false } = none) ∧
    (Url.atPath { scheme := "https".data, host := "example.firebaseio.com".data,
                  path := ['/'], query := none, cannotBeABase := false } "users".data).isSome
      = true := by
  have h := https_always_hierarchical "https://example.firebaseio.com".data
    { scheme := "https".data, host := "example.firebaseio.com".data,
      path := ['/'], query := none, cannotBeABase := false } (by decide)
  exact ⟨h.1, h.2 "users".data⟩
